import Mathlib

/-!
Verification of the m4300-project stock-data ingestion code
(src/main.cc and src/getstock.cc) against its specification.

The C code is shallowly embedded: a `FILE*` stream is a byte buffer with a
read position (`FileST`); `fgets`/`fseek` are modelled at byte level
(`fgets` with the 256-byte line buffer of the C code, i.e. up to 255
characters per call); C strings are `List Char` (NUL-terminated strings
never containing NUL); fatal `die(...)` calls become `Except.error`
values.  `strptime("%Y-%m-%d") + mktime` is modelled by a strictly
monotone encoding of calendar dates into `Nat` (faithful for the
in-range dates `strptime` accepts); `strtod` is modelled on plain
decimal literals (sign, digits, optional fraction), returning `none`
exactly when the C original signals "no conversion performed"
(`endptr == p`).  Loops are written with explicit fuel; every top-level
entry point supplies fuel that provably exceeds the number of
iterations, so the `outOfFuel` result is unreachable in every theorem
below.
-/

/-- C `tolower` restricted to ASCII, as used by `strncasecmp`. -/
def lowerc (c : Char) : Char :=
  if 65 ≤ c.toNat ∧ c.toNat ≤ 90 then Char.ofNat (c.toNat + 32) else c

/-- Map `lowerc` over a C string. -/
def lowerL (s : List Char) : List Char := s.map lowerc

/-- C `isspace` in the default locale (ASCII). -/
def isSpaceC (c : Char) : Bool :=
  c == ' ' || c == '\t' || c == '\n' || c == '\x0b' || c == '\x0c' || c == '\r'

/-- Fatal-error outcomes: each constructor is one `die(...)` site (or one
source of undefined behaviour) in the C sources. -/
inductive Err where
  /-- main.cc:109 `die("File is empty\n")` in `read_until`. -/
  | emptyFile
  /-- main.cc:119 `die("Date field not found in data\n")` in `read_until`. -/
  | dateFieldMissing
  /-- main.cc:125 `die("Failed to parse date in file\n")` in `read_until`. -/
  | dateParseFail
  /-- main.cc:153 `die("Field (%s) not found in string: %s\n", ...)` in `indexOf`. -/
  | fieldNotFoundIn
  /-- main.cc:172 `die("Field not found in data\n")` in `indexOf`. -/
  | fieldNotFound
  /-- main.cc:74 `die("Aborting\n")` after `perror("Parsing Adj. Close")` in `read_stock_data`. -/
  | parseClose
  /-- main.cc:60 `die("failed to open file: ...")` in `read_stock_data`. -/
  | fileOpen
  /-- Undefined behaviour: `strchr` returned NULL and the code increments
  and dereferences it (main.cc:67-68, no NULL check). -/
  | nullDeref
  /-- main.cc:62: the header `fgets` in `read_stock_data` is unchecked; on an
  empty file the stale buffer contents are used.  Out of the model. -/
  | staleHeader
  /-- Fuel exhaustion of the embedding; unreachable under the fuel bounds
  established below. -/
  | outOfFuel
deriving DecidableEq

/-- A C `FILE*` stream opened for reading: the whole byte content plus the
current read offset. -/
structure FileST where
  content : List Char
  pos : Nat
deriving DecidableEq

/-- The unread bytes of the stream. -/
def remainder (f : FileST) : List Char := f.content.drop f.pos

/-- Core of `fgets(buf, n+1, file)`: read characters up to and including the
first newline, but at most `n` characters. -/
def fgetsAux : Nat → List Char → List Char
  | 0, _ => []
  | _ + 1, [] => []
  | n + 1, c :: cs => if c = '\n' then [c] else c :: fgetsAux n cs

/-- `fgets(buf, 256, file)` as used with the 256-byte buffers of main.cc:
returns the line read (at most 255 characters, ending at a newline or EOF)
and the advanced stream, or `none` at end of file. -/
def fgets (f : FileST) : Option (List Char × FileST) :=
  let l := fgetsAux 255 (remainder f)
  if l.isEmpty then none
  else some (l, ⟨f.content, f.pos + l.length⟩)

/-- `fseek(file, offset, whence)` with the C argument order; `whence` must be
`SEEK_SET = 0`, `SEEK_CUR = 1` or `SEEK_END = 2`, otherwise the call fails
with return value `-1` and the position is unchanged. -/
def fseek (f : FileST) (offset : Int) (whence : Int) : FileST × Int :=
  if whence = 0 then
    if 0 ≤ offset then (⟨f.content, offset.toNat⟩, 0) else (f, -1)
  else if whence = 1 then
    let np : Int := (f.pos : Int) + offset
    if 0 ≤ np then (⟨f.content, np.toNat⟩, 0) else (f, -1)
  else if whence = 2 then
    let np : Int := (f.content.length : Int) + offset
    if 0 ≤ np then (⟨f.content, np.toNat⟩, 0) else (f, -1)
  else (f, -1)

/-- C `strchr(s, c)` for a non-NUL character: the suffix of `s` starting at
the first occurrence of `c`, or `none` (NULL). -/
def strchr : List Char → Char → Option (List Char)
  | [], _ => none
  | a :: rest, c => if a = c then some (a :: rest) else strchr rest c

/-- `strncasecmp(s, t, n) == 0` where `s` and `t` are NUL-terminated
(characters past the end of the list read as NUL). -/
def strncaseEq : List Char → List Char → Nat → Bool
  | _, _, 0 => true
  | [], [], _ + 1 => true
  | [], _ :: _, _ + 1 => false
  | _ :: _, [], _ + 1 => false
  | a :: s, b :: t, n + 1 =>
    if lowerc a = lowerc b then strncaseEq s t n else false

/-- Number of `DATA_SEP` (`','`) delimiters in a line (main.cc:166-170). -/
def countSep (line : List Char) : Nat := line.countP (fun c => decide (c = ','))

/-- The field-scanning loop of `indexOf` (main.cc:157-165).  The begin/end
pointer pair is represented by the suffix `s` starting at `begin`; the
first entry condition `begin < lineEnd` is `s ≠ []` (the C pointer going
one past `lineEnd` when the last field is exhausted also yields an empty
suffix here, and both fail the loop condition).  Fuel counts loop
iterations; `line.length + 2` always suffices since `begin` advances by at
least one character per iteration. -/
def indexOfLoop (field : List Char) : Nat → List Char → Nat → Nat
  | 0, _, index => index
  | _ + 1, [], index => index
  | fuel + 1, s@(_ :: _), index =>
    let size := (s.takeWhile (fun c => decide (c ≠ ','))).length
    if strncaseEq s field size then index
    else indexOfLoop field fuel (s.drop (size + 1)) (index + 1)

/-- `indexOf(line, field)` (main.cc:143-174): the zero-based offset of the
comma-separated field of `line` matching `field` under `strncasecmp`.
A line without any comma is compared to `field` as a whole with the
case-sensitive `strcmp`.  A failed lookup `die`s. -/
def indexOf (line field : List Char) : Except Err Nat :=
  match strchr line ',' with
  | none => if line = field then .ok 0 else .error .fieldNotFoundIn
  | some _ =>
    let index := indexOfLoop field (line.length + 2) line 0
    if index > countSep line then .error .fieldNotFound else .ok index

/-- Digit-string value, most significant first. -/
def natFromDigits (ds : List Char) : Nat :=
  ds.foldl (fun a c => a * 10 + (c.toNat - 48)) 0

/-- One numeric conversion of `strptime`: up to `maxD` leading digits
(at least one), value required to lie in `[lo, hi]`. -/
def parseNum (maxD lo hi : Nat) (s : List Char) : Option (Nat × List Char) :=
  let ds := (s.takeWhile Char.isDigit).take maxD
  if ds.isEmpty then none
  else
    let v := natFromDigits ds
    if lo ≤ v ∧ v ≤ hi then some (v, s.drop ds.length) else none

/-- Match one literal character. -/
def expectc (s : List Char) (c : Char) : Option (List Char) :=
  match s with
  | a :: r => if a = c then some r else none
  | [] => none

/-- `strptime(s, "%Y-%m-%d", &tm)`: year up to 4 digits in 0..9999, month in
1..12, day in 1..31, separated by literal dashes; trailing characters are
left unconsumed.  `none` is the NULL return. -/
def strptimeDateFmt (s : List Char) : Option ((Nat × Nat × Nat) × List Char) := do
  let (y, s1) ← parseNum 4 0 9999 s
  let s2 ← expectc s1 '-'
  let (m, s3) ← parseNum 2 1 12 s2
  let s4 ← expectc s3 '-'
  let (d, s5) ← parseNum 2 1 31 s4
  some ((y, m, d), s5)

/-- `mktime` on a `tm` produced by a successful `strptime("%Y-%m-%d")`:
modelled by a strictly monotone injective encoding of (year, month, day).
Like the C `time_t` result it is 0 exactly at the calendar origin of the
encoding. -/
def mkt (y m d : Nat) : Nat := (y * 12 + (m - 1)) * 31 + (d - 1)

/-- `parse_date` (main.cc:40-47): 0 on parse failure. -/
def parse_date (s : List Char) : Nat :=
  match strptimeDateFmt s with
  | none => 0
  | some ((y, m, d), _) => mkt y m d

/-- Skip `k` comma-delimited fields: `k` times `date = strchr(date, ','); date++`
(main.cc:116-122 and main.cc:66-69).  `none` when `strchr` returns NULL. -/
def skipFields : Nat → List Char → Option (List Char)
  | 0, s => some s
  | k + 1, s =>
    match strchr s ',' with
    | none => none
    | some t => skipFields k t.tail

/-- The field name `"date"` passed to `indexOf` by `read_until` (main.cc:110). -/
def dateField : List Char := "date".data

/-- The row loop of `read_until` (main.cc:113-132).  On a qualifying row the
code executes `fseek(file, SEEK_CUR, -nread)` — note the argument order:
`SEEK_CUR` is passed as the byte offset and `-nread` as `whence`. -/
def readUntilLoop (dateIdx tgt : Nat) : Nat → FileST → Except Err (Nat × FileST)
  | 0, _ => .error .outOfFuel
  | fuel + 1, f =>
    match fgets f with
    | none => .ok (0, f)
    | some (buf, f1) =>
      let nread := buf.length
      match skipFields dateIdx buf with
      | none => .error .dateFieldMissing
      | some date =>
        match strptimeDateFmt date with
        | none => .error .dateParseFail
        | some ((y, m, d), _) =>
          let tmp := mkt y m d
          if tgt ≤ tmp then .ok (tmp, (fseek f1 1 (-(nread : Int))).1)
          else readUntilLoop dateIdx tgt fuel f1

/-- `read_until(file, begin)` (main.cc:98-136): resolve the `"date"` column
from the header, then scan rows for the first date `≥ begin`; 0 at EOF. -/
def read_until (f : FileST) (tgt : Nat) : Except Err (Nat × FileST) :=
  match fgets f with
  | none => .error .emptyFile
  | some (buf, f1) =>
    match indexOf buf dateField with
    | .error e => .error e
    | .ok dateIdx => readUntilLoop dateIdx tgt (f.content.length + 1) f1

/-- The exact value of a parsed decimal literal: `mantissa / 10 ^ scale`.
Stands in for the C `double` (the claims below never do arithmetic on
prices, only compare which value each row produced). -/
structure DecVal where
  mantissa : Int
  scale : Nat
deriving DecidableEq

/-- `strtod(p, &endptr)` restricted to plain decimal literals (optional
whitespace, optional sign, digits with optional fraction; exponents and
hex/inf/nan forms do not occur in this data and are not modelled).
`none` models the no-conversion outcome the C code tests for with
`price == 0.0 && endptr == p`. -/
def strtodM (s : List Char) : Option DecVal :=
  let s1 := s.dropWhile isSpaceC
  let (sgn, s2) :=
    match s1 with
    | '-' :: r => (true, r)
    | '+' :: r => (false, r)
    | _ => (false, s1)
  let ds := s2.takeWhile Char.isDigit
  let s3 := s2.drop ds.length
  let fr :=
    match s3 with
    | '.' :: r => r.takeWhile Char.isDigit
    | _ => []
  if ds.isEmpty ∧ fr.isEmpty then none
  else
    let n : Int := (natFromDigits (ds ++ fr) : Int)
    some ⟨if sgn then -n else n, fr.length⟩

/-- The field name `"Adj. Close"` (main.cc:63). -/
def adjClose : List Char := "Adj. Close".data

/-- Processing of one data row of `read_stock_data` (main.cc:64-76): skip
`close_index` fields with unchecked `strchr` (NULL dereference is
undefined behaviour), then `strtod` with the parse-error check. -/
def rsdRow (closeIdx : Nat) (buf : List Char) : Except Err DecVal :=
  match skipFields closeIdx buf with
  | none => .error .nullDeref
  | some p =>
    match strtodM p with
    | none => .error .parseClose
    | some v => .ok v

/-- The row loop of `read_stock_data` for one file (main.cc:64-77); `prices`
is the accumulator that the C code keeps across files. -/
def rsdRows (closeIdx : Nat) : Nat → FileST → List DecVal → Except Err (List DecVal)
  | 0, _, _ => .error .outOfFuel
  | fuel + 1, f, prices =>
    match fgets f with
    | none => .ok prices
    | some (buf, f1) =>
      match rsdRow closeIdx buf with
      | .error e => .error e
      | .ok v => rsdRows closeIdx fuel f1 (prices ++ [v])

/-- One iteration of the file loop of `read_stock_data` (main.cc:55-79):
read the header (unchecked `fgets`), resolve `"Adj. Close"`, then read
every row.  Returns the `prices` vector as grown so far. -/
def rsdFile (f : FileST) (prices : List DecVal) : Except Err (List DecVal) :=
  match fgets f with
  | none => .error .staleHeader
  | some (hdr, f1) =>
    match indexOf hdr adjClose with
    | .error e => .error e
    | .ok closeIdx => rsdRows closeIdx (f.content.length + 1) f1 prices

/-- The file loop of `read_stock_data` (main.cc:48-81): `prices` is declared
outside the loop and never cleared, and `data.emplace_back(prices)` copies
its current contents after each file.  A `none` file is a failed
`fopen`. -/
def rsdFiles : List (Option FileST) → List DecVal → List (List DecVal) →
    Except Err (List (List DecVal))
  | [], _, data => .ok data
  | none :: _, _, _ => .error .fileOpen
  | some f :: rest, prices, data =>
    match rsdFile f prices with
    | .error e => .error e
    | .ok prices1 => rsdFiles rest prices1 (data ++ [prices1])

/-- `read_stock_data(filepaths)` (main.cc:48-81). -/
def read_stock_data (files : List (Option FileST)) : Except Err (List (List DecVal)) :=
  rsdFiles files [] []

/-- getstock.cc:44. -/
def urlbase : List Char := "https://www.quandl.com/api/v3/datasets/WIKI/".data

/-- `make_url(ticker, token, begin, end)` (getstock.cc:118-133); `none`
models a NULL date pointer. -/
def make_url (ticker token : List Char) (b e : Option (List Char)) : List Char :=
  urlbase ++ ticker ++ ".csv?order=asc&api_key=".data ++ token
    ++ (match b with | none => [] | some bs => "&start_date=".data ++ bs)
    ++ (match e with | none => [] | some es => "&end_date=".data ++ es)

/-- `make_filename(dbroot, ticker, begin, end)` (getstock.cc:139-151).
Only the last character of `dbroot` is inspected (`dbroot.back()`); the
date segment is added only when both dates are non-NULL. -/
def make_filename (dbroot ticker : List Char) (b e : Option (List Char)) : List Char :=
  dbroot
    ++ (if dbroot.getLast? = some '/' then [] else ['/'])
    ++ ticker
    ++ (match b, e with
        | some bs, some es => '.' :: (bs ++ '.' :: es)
        | _, _ => [])
    ++ ".csv".data

/-- getstock.cc main (lines 286-298): `begin` and `end` are `std::string`s
defaulting to `""` and are passed to `make_url` via `c_str()`, which is
never NULL — so the date arguments are always present, possibly empty. -/
def pipelineURL (ticker apiKey : List Char) : List Char :=
  make_url ticker apiKey (some []) (some [])

/-- getstock.cc main (line 297): same always-present empty dates for
`make_filename`. -/
def pipelineFilename (dbroot ticker : List Char) : List Char :=
  make_filename dbroot ticker (some []) (some [])

/-- A well-formed text line for the byte-level stream model: nonempty,
terminated by its only newline, and short enough for the 256-byte `fgets`
buffer of main.cc. -/
def goodLine (l : List Char) : Bool :=
  !l.isEmpty && (l.getLast? == some '\n') && !(l.dropLast.contains '\n')
    && decide (l.length ≤ 255)

/-- The parsed date of a data row at date-column offset `k`, exactly as the
`read_until` row loop reads it: skip `k` comma fields, then
`strptime`/`mktime`.  `none` when the loop would `die` on that row. -/
def rowDate (k : Nat) (r : List Char) : Option Nat :=
  match skipFields k r with
  | none => none
  | some date =>
    match strptimeDateFmt date with
    | none => none
    | some ((y, m, d), _) => some (mkt y m d)

/-- The parsed price of a data row at column offset `k`, exactly as the
`read_stock_data` row loop reads it. -/
def rowVal (k : Nat) (r : List Char) : Option DecVal :=
  match skipFields k r with
  | none => none
  | some p => strtodM p

/-- Strictly ascending sequence of encoded dates. -/
def ascendingBy : List Nat → Bool
  | [] => true
  | [_] => true
  | a :: b :: rest => decide (a < b) && ascendingBy (b :: rest)

/-- Line-level restatement of the `read_until` row loop, used to relate the
byte-level `readUntilLoop` to the rows of the stream.  The row that ends the
scan is consumed (its length is added to the position) because the
transposed-argument `fseek` of main.cc:129 never rewinds. -/
def seekSpec (k tgt : Nat) : List (List Char) → FileST → Except Err (Nat × FileST)
  | [], f => .ok (0, f)
  | r :: rest, f =>
    match skipFields k r with
    | none => .error .dateFieldMissing
    | some date =>
      match strptimeDateFmt date with
      | none => .error .dateParseFail
      | some ((y, m, d), _) =>
        if tgt ≤ mkt y m d then .ok (mkt y m d, ⟨f.content, f.pos + r.length⟩)
        else seekSpec k tgt rest ⟨f.content, f.pos + r.length⟩

/-- Number of positions at which `pat` occurs as a contiguous substring of
`s` (occurrences may overlap). -/
def occCount (pat s : List Char) : Nat :=
  ((List.range (s.length + 1)).filter
    (fun i => decide ((s.drop i).take pat.length = pat))).length

/-- `s` starts with `p`. -/
def startsW (p s : List Char) : Bool := decide (s.take p.length = p)

/-- Split a string on the `'&'` character (used to read a URL's query
parameters back off). -/
def splitAmp : List Char → List (List Char)
  | [] => [[]]
  | c :: cs =>
    if c = '&' then [] :: splitAmp cs
    else
      match splitAmp cs with
      | h :: t => (c :: h) :: t
      | [] => [[c]]

/-- The URL carries a query parameter `name=...`: some `'&'`-separated
component starts with `name=`. -/
def hasParam (nameEq url : List Char) : Bool :=
  (splitAmp url).any (fun comp => startsW nameEq comp)

/-- Number of trailing `'/'` characters of a path. -/
def trailSlash (root : List Char) : Nat :=
  (root.reverse.takeWhile (fun c => decide (c = '/'))).length

/-- The path with its trailing `'/'` characters removed. -/
def stripSlash (root : List Char) : List Char :=
  (root.reverse.dropWhile (fun c => decide (c = '/'))).reverse

/-- The date segment `make_filename` inserts: `.begin.end` only when both
dates are present. -/
def dateSeg : Option (List Char) → Option (List Char) → List Char
  | some bs, some es => '.' :: (bs ++ '.' :: es)
  | _, _ => []

/-- The scanner example stream of the spec (§8): header `Date,Close` and
rows `2018-01-02,10`, `2018-01-03,11`, `2018-01-05,12`. -/
def scanExample : List Char :=
  "Date,Close\n2018-01-02,10\n2018-01-03,11\n2018-01-05,12\n".data

/-- First example file for the column extractor: one data row with
Adj. Close value 10. -/
def exFileA : List Char := "Adj. Close,Date\n10,2018-01-02\n".data

/-- Second example file: one data row with Adj. Close value 20. -/
def exFileB : List Char := "Adj. Close,Date\n20,2018-01-03\n".data

deriving instance DecidableEq for Except

/-! ## Claim C1 — seek leaves the qualifying row unconsumed (code bug) -/

/-- C1: the spec requires the row containing the returned date to stay
unconsumed, but main.cc:129 calls `fseek(file, SEEK_CUR, -nread)` with the
offset and whence arguments transposed; `whence = -nread` is invalid, the
seek fails, and the qualifying row stays consumed.  On the spec's own
scanner example, `read_until` to 2018-01-03 returns that date but the next
row read is `2018-01-05,12`, not `2018-01-03,11`. -/
theorem read_until_consumes_returned_row :
    read_until ⟨scanExample, 0⟩ (parse_date "2018-01-03".data)
      = .ok (parse_date "2018-01-03".data, ⟨scanExample, 39⟩)
    ∧ (fgets ⟨scanExample, 39⟩).map Prod.fst = some "2018-01-05,12\n".data
    ∧ "2018-01-05,12\n".data ≠ "2018-01-03,11\n".data := by
  refine ⟨by decide, by decide, by decide⟩

/-! ## Claim C2 — one value per row, no carry-over (code bug) -/

/-- C2: `prices` (main.cc:52) is declared outside the file loop and never
cleared, so the second file's extracted sequence carries the first file's
values; moreover, with the spec's header `Date,Open,High,Low,Close,Volume,
Adj. Close` the target column is last, the header buffer ends in `'\n'`,
and `strncasecmp` compares 11 characters, so the lookup itself `die`s with
FieldNotFound instead of extracting the 7th field. -/
theorem read_stock_data_carries_values_over :
    read_stock_data [some ⟨exFileA, 0⟩, some ⟨exFileB, 0⟩]
      = .ok [[⟨10, 0⟩], [⟨10, 0⟩, ⟨20, 0⟩]]
    ∧ indexOf "Date,Open,High,Low,Close,Volume,Adj. Close\n".data adjClose
      = .error .fieldNotFound := by
  refine ⟨by decide, by decide⟩

/-! ## Library lemmas about the embedded primitives -/

theorem strchr_eq_none {s : List Char} {c : Char} : strchr s c = none ↔ c ∉ s := by
  induction s with
  | nil => simp [strchr]
  | cons a rest ih =>
    by_cases h : a = c
    · subst h; simp [strchr]
    · simp [strchr, h, ih, Ne.symm h]

/-! ## Claim C9 — a returned offset never exceeds the delimiter count -/

/-- C9: every offset `indexOf` returns is at most the number of comma
delimiters in the header line (main.cc:166-173 checks exactly this before
returning, and the no-delimiter path returns 0). -/
theorem indexOf_le_countSep (line field : List Char) (n : Nat)
    (h : indexOf line field = .ok n) : n ≤ countSep line := by
  unfold indexOf at h
  cases hc : strchr line ',' <;> rw [hc] at h
  · by_cases he : line = field
    · rw [if_pos he] at h; cases h; exact Nat.zero_le _
    · rw [if_neg he] at h; cases h
  · by_cases hgt : indexOfLoop field (line.length + 2) line 0 > countSep line
    · rw [if_pos hgt] at h; cases h
    · rw [if_neg hgt] at h; cases h; omega

theorem indexOf_le_countSep_witness :
    indexOf "Date,Close".data "Close".data = .ok 1 ∧ 1 ≤ countSep "Date,Close".data :=
  ⟨by decide, indexOf_le_countSep "Date,Close".data "Close".data 1 (by decide)⟩

/-! ## Claim C7 — delimiter-free header comparison (corrected) -/

/-- C7 counterexample: the claim says a delimiter-free header is compared
case-insensitively (so `indexOf("date", "Date")` would be offset 0), but
main.cc:151 uses the case-sensitive `strcmp`: the call fails with the
FieldNotFound `die` instead. -/
theorem indexOf_nodelim_case_cex :
    indexOf "date".data "Date".data ≠ .ok 0
    ∧ indexOf "date".data "Date".data = .error .fieldNotFoundIn := by
  exact ⟨by decide, by decide⟩

/-- C7 amended: when the header line contains no comma the whole line is
compared to the field name with the case-sensitive `strcmp`: offset 0
exactly on literal equality, FieldNotFound otherwise. -/
theorem indexOf_nodelim_strcmp (line field : List Char) (h : ',' ∉ line) :
    (indexOf line field = .ok 0 ↔ line = field)
    ∧ (line ≠ field → indexOf line field = .error .fieldNotFoundIn) := by
  have hc : strchr line ',' = none := strchr_eq_none.mpr h
  unfold indexOf
  rw [hc]
  refine ⟨⟨fun hh => ?_, fun he => by simp [he]⟩, fun he => by simp [he]⟩
  by_cases he : line = field
  · exact he
  · simp [he] at hh

theorem indexOf_nodelim_strcmp_witness :
    (',' ∉ "date".data) ∧ indexOf "date".data "date".data = .ok 0 :=
  ⟨by decide, (indexOf_nodelim_strcmp "date".data "date".data (by decide)).1.mpr rfl⟩

/-! ## Claim C6 — filename separator insertion (corrected) -/

/-- C6 counterexample: the claim says exactly one separator is inserted
regardless of how many `'/'` characters end the root, but getstock.cc:144
inspects only `dbroot.back()`: a root ending in two slashes keeps both. -/
theorem make_filename_doubleslash_cex :
    make_filename "db//".data "T".data none none = "db//T.csv".data
    ∧ make_filename "db//".data "T".data none none ≠ "db/T.csv".data := by
  exact ⟨by decide, by decide⟩

theorem stripSlash_append_replicate (root : List Char) :
    stripSlash root ++ List.replicate (trailSlash root) '/' = root := by
  unfold stripSlash trailSlash
  have h1 : root.reverse.takeWhile (fun c => decide (c = '/'))
      = List.replicate (root.reverse.takeWhile (fun c => decide (c = '/'))).length '/' := by
    rw [List.eq_replicate_iff]
    refine ⟨rfl, fun b hb => ?_⟩
    simpa using List.mem_takeWhile_imp hb
  conv_rhs =>
    rw [← root.reverse_reverse,
      ← List.takeWhile_append_dropWhile (p := fun c => decide (c = '/')) (l := root.reverse)]
  rw [List.reverse_append]
  conv_rhs => rw [h1]
  simp [List.reverse_replicate]

theorem getLast_slash (root : List Char) (hr : root ≠ []) :
    (root.getLast? = some '/') ↔ 1 ≤ trailSlash root := by
  unfold trailSlash
  rw [← List.head?_reverse]
  cases hrev : root.reverse with
  | nil => exact absurd (List.reverse_eq_nil_iff.mp hrev) hr
  | cons a rest =>
    by_cases ha : a = '/'
    · subst ha; simp [List.takeWhile_cons]
    · simp [List.takeWhile_cons, ha]

theorem root_sep (root : List Char) (hr : root ≠ []) :
    root ++ (if root.getLast? = some '/' then [] else ['/'])
      = stripSlash root ++ List.replicate (max 1 (trailSlash root)) '/' := by
  by_cases h : root.getLast? = some '/'
  · have h1 : 1 ≤ trailSlash root := (getLast_slash root hr).mp h
    rw [if_pos h, List.append_nil, Nat.max_eq_right h1]
    exact (stripSlash_append_replicate root).symm
  · have h0 : trailSlash root = 0 := by
      by_contra hh
      exact h ((getLast_slash root hr).mpr (Nat.one_le_iff_ne_zero.mpr hh))
    have hs : stripSlash root = root := by
      have := stripSlash_append_replicate root
      rw [h0] at this; simpa using this
    rw [if_neg h, h0, hs]
    simp

/-- C6 amended: `make_filename` returns `root/T(.b.e)?.csv`; the number of
path separators between the slash-stripped root and the ticker is exactly
one when the root ends in at most one `'/'`, and is the root's own trailing
slash count when it ends in two or more (only the last character is
inspected, so extra trailing slashes are kept). -/
theorem make_filename_sep_amended (root T : List Char) (b e : Option (List Char))
    (hr : root ≠ []) :
    make_filename root T b e
      = stripSlash root ++ List.replicate (max 1 (trailSlash root)) '/'
        ++ T ++ dateSeg b e ++ ".csv".data := by
  have h := root_sep root hr
  cases b <;> cases e <;> simp only [make_filename, dateSeg, h]

theorem make_filename_sep_amended_witness :
    make_filename "db/".data "X".data none none
      = stripSlash "db/".data ++ List.replicate (max 1 (trailSlash "db/".data)) '/'
        ++ "X".data ++ dateSeg none none ++ ".csv".data :=
  make_filename_sep_amended "db/".data "X".data none none (by decide)

/-! ## Claim C4 — URL occurrence counting (corrected) -/

/-- C4 counterexample: the claim says the URL contains exactly one
occurrence of the ticker, but a ticker whose text also occurs in the fixed
template (here `"a"`, which occurs in `quandl`, `api`, `datasets`, ...)
occurs more than once. -/
theorem make_url_exactly_one_cex :
    occCount "a".data (make_url "a".data "z".data none none) ≠ 1 := by decide

theorem occCount_pos (pat A B : List Char) : 1 ≤ occCount pat (A ++ (pat ++ B)) := by
  have hp : ((A ++ (pat ++ B)).drop A.length).take pat.length = pat := by
    rw [List.drop_left, List.take_left]
  have hmem : A.length ∈ (List.range ((A ++ (pat ++ B)).length + 1)).filter
      (fun i => decide (((A ++ (pat ++ B)).drop i).take pat.length = pat)) := by
    refine List.mem_filter.mpr ⟨List.mem_range.mpr ?_, by simp [hp]⟩
    simp [List.length_append]
    omega
  have := List.ne_nil_of_mem hmem
  have hlen := List.length_pos.mpr this
  unfold occCount
  omega

theorem splitAmp_no {x : List Char} (h : '&' ∉ x) : splitAmp x = [x] := by
  induction x with
  | nil => rfl
  | cons a rest ih =>
    have ha : a ≠ '&' := fun hh => h (hh ▸ List.mem_cons_self a rest)
    have hr : '&' ∉ rest := fun hh => h (List.mem_cons_of_mem a hh)
    simp [splitAmp, ha, ih hr]

theorem splitAmp_sep {x : List Char} (y : List Char) (h : '&' ∉ x) :
    splitAmp (x ++ '&' :: y) = x :: splitAmp y := by
  induction x with
  | nil => simp [splitAmp]
  | cons a rest ih =>
    have ha : a ≠ '&' := fun hh => h (hh ▸ List.mem_cons_self a rest)
    have hr : '&' ∉ rest := fun hh => h (List.mem_cons_of_mem a hh)
    simp only [List.cons_append, splitAmp, if_neg ha, List.append_eq]
    rw [ih hr]

theorem startsW_self (p s : List Char) : startsW p (p ++ s) = true := by
  simp [startsW, List.take_left]

theorem startsW_ne_head {a c : Char} (h : a ≠ c) (p s : List Char) :
    startsW (c :: p) (a :: s) = false := by
  simp [startsW, List.take_succ_cons, h]

/-- C4 amended: for components free of `'&'`, the URL contains at least one
occurrence of the ticker and of the token (exactly one is spliced in by the
builder, but a ticker/token whose text also occurs in the fixed template
yields extra occurrences), and the `'&'`-separated query components carry a
`start_date=` parameter iff the begin date was supplied and an `end_date=`
parameter iff the end date was supplied. -/
theorem make_url_amended (t k : List Char) (b e : Option (List Char))
    (ht : '&' ∉ t) (hk : '&' ∉ k)
    (hb : ∀ bs, b = some bs → '&' ∉ bs) (he : ∀ es, e = some es → '&' ∉ es) :
    1 ≤ occCount t (make_url t k b e)
    ∧ 1 ≤ occCount k (make_url t k b e)
    ∧ hasParam "start_date=".data (make_url t k b e) = b.isSome
    ∧ hasParam "end_date=".data (make_url t k b e) = e.isSome := by
  have hM : ".csv?order=asc&api_key=".data
      = ".csv?order=asc".data ++ '&' :: "api_key=".data := by decide
  have hBlit : "&start_date=".data = '&' :: "start_date=".data := by decide
  have hElit : "&end_date=".data = '&' :: "end_date=".data := by decide
  have hPs : "start_date=".data = 's' :: "tart_date=".data := by decide
  have hPe : "end_date=".data = 'e' :: "nd_date=".data := by decide
  have hub : urlbase = 'h' :: "ttps://www.quandl.com/api/v3/datasets/WIKI/".data := by
    decide
  have hak : "api_key=".data = 'a' :: "pi_key=".data := by decide
  have hX : '&' ∉ urlbase ++ (t ++ ".csv?order=asc".data) := by
    simp only [List.mem_append, not_or]
    exact ⟨by decide, ht, by decide⟩
  have hK1 : '&' ∉ "api_key=".data ++ k := by
    simp only [List.mem_append, not_or]
    exact ⟨by decide, hk⟩
  -- the query components of the built URL
  have hsplit : splitAmp (make_url t k b e)
      = (urlbase ++ (t ++ ".csv?order=asc".data))
        :: ("api_key=".data ++ k)
        :: (b.elim [] (fun bs => ["start_date=".data ++ bs])
          ++ e.elim [] (fun es => ["end_date=".data ++ es])) := by
    cases b with
    | none =>
      cases e with
      | none =>
        have hu : make_url t k none none
            = (urlbase ++ (t ++ ".csv?order=asc".data))
              ++ '&' :: ("api_key=".data ++ k) := by
          simp [make_url, hM, List.append_assoc]
        rw [hu, splitAmp_sep _ hX, splitAmp_no hK1]
        simp [Option.elim]
      | some es =>
        have hE1 : '&' ∉ "end_date=".data ++ es := by
          simp only [List.mem_append, not_or]
          exact ⟨by decide, he es rfl⟩
        have hu : make_url t k none (some es)
            = (urlbase ++ (t ++ ".csv?order=asc".data))
              ++ '&' :: (("api_key=".data ++ k)
                ++ '&' :: ("end_date=".data ++ es)) := by
          simp [make_url, hM, hElit, List.append_assoc]
        rw [hu, splitAmp_sep _ hX, splitAmp_sep _ hK1, splitAmp_no hE1]
        simp [Option.elim]
    | some bs =>
      have hS1 : '&' ∉ "start_date=".data ++ bs := by
        simp only [List.mem_append, not_or]
        exact ⟨by decide, hb bs rfl⟩
      cases e with
      | none =>
        have hu : make_url t k (some bs) none
            = (urlbase ++ (t ++ ".csv?order=asc".data))
              ++ '&' :: (("api_key=".data ++ k)
                ++ '&' :: ("start_date=".data ++ bs)) := by
          simp [make_url, hM, hBlit, List.append_assoc]
        rw [hu, splitAmp_sep _ hX, splitAmp_sep _ hK1, splitAmp_no hS1]
        simp [Option.elim]
      | some es =>
        have hE1 : '&' ∉ "end_date=".data ++ es := by
          simp only [List.mem_append, not_or]
          exact ⟨by decide, he es rfl⟩
        have hu : make_url t k (some bs) (some es)
            = (urlbase ++ (t ++ ".csv?order=asc".data))
              ++ '&' :: (("api_key=".data ++ k)
                ++ '&' :: (("start_date=".data ++ bs)
                  ++ '&' :: ("end_date=".data ++ es))) := by
          simp [make_url, hM, hBlit, hElit, List.append_assoc]
        rw [hu, splitAmp_sep _ hX, splitAmp_sep _ hK1, splitAmp_sep _ hS1,
          splitAmp_no hE1]
        simp [Option.elim]
  have hFXs : startsW "start_date=".data (urlbase ++ (t ++ ".csv?order=asc".data))
      = false := by
    rw [hub, hPs, List.cons_append]; exact startsW_ne_head (by decide) _ _
  have hFXe : startsW "end_date=".data (urlbase ++ (t ++ ".csv?order=asc".data))
      = false := by
    rw [hub, hPe, List.cons_append]; exact startsW_ne_head (by decide) _ _
  have hFKs : startsW "start_date=".data ("api_key=".data ++ k) = false := by
    rw [hak, hPs, List.cons_append]; exact startsW_ne_head (by decide) _ _
  have hFKe : startsW "end_date=".data ("api_key=".data ++ k) = false := by
    rw [hak, hPe, List.cons_append]; exact startsW_ne_head (by decide) _ _
  have hSe : ∀ bs, startsW "end_date=".data ("start_date=".data ++ bs) = false := by
    intro bs
    rw [hPs, hPe, List.cons_append]; exact startsW_ne_head (by decide) _ _
  have hEs : ∀ es, startsW "start_date=".data ("end_date=".data ++ es) = false := by
    intro es
    rw [hPe, hPs, List.cons_append]; exact startsW_ne_head (by decide) _ _
  have hFKs2 : ∀ kk : List Char, startsW "start_date=".data
      ('a' :: 'p' :: 'i' :: '_' :: 'k' :: 'e' :: 'y' :: '=' :: kk) = false := by
    intro kk; rw [hPs]; exact startsW_ne_head (by decide) _ _
  have hFKe2 : ∀ kk : List Char, startsW "end_date=".data
      ('a' :: 'p' :: 'i' :: '_' :: 'k' :: 'e' :: 'y' :: '=' :: kk) = false := by
    intro kk; rw [hPe]; exact startsW_ne_head (by decide) _ _
  have hSs2 : ∀ bs : List Char, startsW "start_date=".data
      ('s' :: 't' :: 'a' :: 'r' :: 't' :: '_' :: 'd' :: 'a' :: 't' :: 'e' :: '=' :: bs)
      = true := by
    intro bs; simpa using startsW_self "start_date=".data bs
  have hSe2 : ∀ bs : List Char, startsW "end_date=".data
      ('s' :: 't' :: 'a' :: 'r' :: 't' :: '_' :: 'd' :: 'a' :: 't' :: 'e' :: '=' :: bs)
      = false := by
    intro bs; rw [hPe]; exact startsW_ne_head (by decide) _ _
  have hEs2 : ∀ es : List Char, startsW "start_date=".data
      ('e' :: 'n' :: 'd' :: '_' :: 'd' :: 'a' :: 't' :: 'e' :: '=' :: es) = false := by
    intro es; rw [hPs]; exact startsW_ne_head (by decide) _ _
  have hEe2 : ∀ es : List Char, startsW "end_date=".data
      ('e' :: 'n' :: 'd' :: '_' :: 'd' :: 'a' :: 't' :: 'e' :: '=' :: es) = true := by
    intro es; simpa using startsW_self "end_date=".data es
  refine ⟨?_, ?_, ?_, ?_⟩
  · have hu : make_url t k b e
        = urlbase ++ (t ++ (".csv?order=asc&api_key=".data
          ++ (k ++ (b.elim [] (fun bs => "&start_date=".data ++ bs)
            ++ e.elim [] (fun es => "&end_date=".data ++ es))))) := by
      cases b <;> cases e <;> simp [make_url, List.append_assoc, Option.elim]
    rw [hu]
    exact occCount_pos t urlbase _
  · have hu : make_url t k b e
        = (urlbase ++ t ++ ".csv?order=asc&api_key=".data)
          ++ (k ++ (b.elim [] (fun bs => "&start_date=".data ++ bs)
            ++ e.elim [] (fun es => "&end_date=".data ++ es))) := by
      cases b <;> cases e <;> simp [make_url, List.append_assoc, Option.elim]
    rw [hu]
    exact occCount_pos k _ _
  · unfold hasParam
    rw [hsplit]
    cases b <;> cases e <;>
      simp [Option.elim, hFXs, hFKs2, hSs2, hEs2]
  · unfold hasParam
    rw [hsplit]
    cases b <;> cases e <;>
      simp [Option.elim, hFXe, hFKe2, hSe2, hEe2]

theorem make_url_amended_witness :
    1 ≤ occCount "JPM".data
        (make_url "JPM".data "tok".data (some "2018-01-01".data) none)
    ∧ 1 ≤ occCount "tok".data
        (make_url "JPM".data "tok".data (some "2018-01-01".data) none)
    ∧ hasParam "start_date=".data
        (make_url "JPM".data "tok".data (some "2018-01-01".data) none)
      = (some "2018-01-01".data).isSome
    ∧ hasParam "end_date=".data
        (make_url "JPM".data "tok".data (some "2018-01-01".data) none)
      = (none : Option (List Char)).isSome :=
  make_url_amended "JPM".data "tok".data (some "2018-01-01".data) none
    (by decide) (by decide) (fun bs h => by cases h; decide) (fun es h => by cases h)

/-! ## Claim C8 — case-insensitivity of indexOf (corrected) -/

theorem toNat_lowerc (c : Char) (h : 65 ≤ c.toNat ∧ c.toNat ≤ 90) :
    (lowerc c).toNat = c.toNat + 32 := by
  unfold lowerc
  rw [if_pos h]
  have hv : (c.toNat + 32).isValidChar := by left; omega
  unfold Char.ofNat
  rw [dif_pos hv]
  rfl

theorem lowerc_comma (c : Char) : lowerc c = ',' ↔ c = ',' := by
  constructor
  · intro h
    by_cases hb : 65 ≤ c.toNat ∧ c.toNat ≤ 90
    · exfalso
      have h1 := toNat_lowerc c hb
      rw [h] at h1
      have h2 : (44 : Nat) = c.toNat + 32 := h1
      omega
    · unfold lowerc at h
      rwa [if_neg hb] at h
  · intro h; subst h; decide

theorem lowerL_head {a b : Char} {s t : List Char}
    (h : lowerL (a :: s) = lowerL (b :: t)) : lowerc a = lowerc b ∧ lowerL s = lowerL t := by
  simpa [lowerL] using h

theorem lowerL_nil_ne {a : Char} {s : List Char} : lowerL (a :: s) ≠ lowerL [] := by
  simp [lowerL]

theorem strncaseEq_zero (s f : List Char) : strncaseEq s f 0 = true := by
  cases s <;> cases f <;> rfl

theorem strncaseEq_congr : ∀ (n : Nat) (s₁ s₂ f₁ f₂ : List Char),
    lowerL s₁ = lowerL s₂ → lowerL f₁ = lowerL f₂ →
    strncaseEq s₁ f₁ n = strncaseEq s₂ f₂ n := by
  intro n
  induction n with
  | zero => intros; rw [strncaseEq_zero, strncaseEq_zero]
  | succ m ih =>
    intro s₁ s₂ f₁ f₂ hs hf
    cases s₁ with
    | nil =>
      cases s₂ with
      | nil =>
        cases f₁ with
        | nil =>
          cases f₂ with
          | nil => rfl
          | cons b t => exact absurd hf.symm lowerL_nil_ne
        | cons b t =>
          cases f₂ with
          | nil => exact absurd hf lowerL_nil_ne
          | cons b' t' => rfl
      | cons a' s' => exact absurd hs.symm lowerL_nil_ne
    | cons a s =>
      cases s₂ with
      | nil => exact absurd hs lowerL_nil_ne
      | cons a' s' =>
        cases f₁ with
        | nil =>
          cases f₂ with
          | nil => rfl
          | cons b' t' => exact absurd hf.symm lowerL_nil_ne
        | cons b t =>
          cases f₂ with
          | nil => exact absurd hf lowerL_nil_ne
          | cons b' t' =>
            obtain ⟨ha, hs'⟩ := lowerL_head hs
            obtain ⟨hb, hf'⟩ := lowerL_head hf
            simp only [strncaseEq, ha, hb]
            by_cases hcc : lowerc a' = lowerc b'
            · rw [if_pos hcc, if_pos hcc]
              exact ih s s' t t' hs' hf'
            · rw [if_neg hcc, if_neg hcc]

theorem takeWhile_comma_congr : ∀ s₁ s₂ : List Char, lowerL s₁ = lowerL s₂ →
    (s₁.takeWhile (fun c => decide (c ≠ ','))).length
      = (s₂.takeWhile (fun c => decide (c ≠ ','))).length := by
  intro s₁
  induction s₁ with
  | nil =>
    intro s₂ h
    cases s₂ with
    | nil => rfl
    | cons a' s' => exact absurd h.symm lowerL_nil_ne
  | cons a s ih =>
    intro s₂ h
    cases s₂ with
    | nil => exact absurd h lowerL_nil_ne
    | cons a' s' =>
      obtain ⟨ha, hs⟩ := lowerL_head h
      have hcm : (a = ',') ↔ (a' = ',') := by
        rw [← lowerc_comma a, ← lowerc_comma a', ha]
      by_cases hc : a = ','
      · have hc' := hcm.mp hc
        simp [List.takeWhile_cons, hc, hc']
      · have hc' : ¬ a' = ',' := fun hh => hc (hcm.mpr hh)
        have hrec := ih s' hs
        simp [List.takeWhile_cons, hc, hc']
        simpa using hrec

theorem lowerL_drop (s : List Char) (n : Nat) : lowerL (s.drop n) = (lowerL s).drop n := by
  simp [lowerL, List.map_drop]

theorem indexOfLoop_congr : ∀ (fuel : Nat) (s₁ s₂ f₁ f₂ : List Char) (idx : Nat),
    lowerL s₁ = lowerL s₂ → lowerL f₁ = lowerL f₂ →
    indexOfLoop f₁ fuel s₁ idx = indexOfLoop f₂ fuel s₂ idx := by
  intro fuel
  induction fuel with
  | zero => intros; rfl
  | succ m ih =>
    intro s₁ s₂ f₁ f₂ idx hs hf
    cases s₁ with
    | nil =>
      cases s₂ with
      | nil => rfl
      | cons a' s' => exact absurd hs.symm lowerL_nil_ne
    | cons a s =>
      cases s₂ with
      | nil => exact absurd hs lowerL_nil_ne
      | cons a' s' =>
        simp only [indexOfLoop]
        have hsz := takeWhile_comma_congr (a :: s) (a' :: s') hs
        rw [← hsz]
        have hcase := strncaseEq_congr
          ((a :: s).takeWhile (fun c => decide (c ≠ ','))).length
          (a :: s) (a' :: s') f₁ f₂ hs hf
        rw [← hcase]
        by_cases hb : strncaseEq (a :: s) f₁
            ((a :: s).takeWhile (fun c => decide (c ≠ ','))).length = true
        · rw [if_pos hb, if_pos hb]
        · rw [if_neg hb, if_neg hb]
          refine ih _ _ _ _ _ ?_ hf
          rw [lowerL_drop, lowerL_drop, hs]

theorem countSep_congr {s₁ s₂ : List Char} (h : lowerL s₁ = lowerL s₂) :
    countSep s₁ = countSep s₂ := by
  induction s₁ generalizing s₂ with
  | nil =>
    cases s₂ with
    | nil => rfl
    | cons a' s' => exact absurd h.symm lowerL_nil_ne
  | cons a s ih =>
    cases s₂ with
    | nil => exact absurd h lowerL_nil_ne
    | cons a' s' =>
      obtain ⟨ha, hs⟩ := lowerL_head h
      have hcm : (a = ',') ↔ (a' = ',') := by
        rw [← lowerc_comma a, ← lowerc_comma a', ha]
      by_cases hc : a = ','
      · have hc' := hcm.mp hc
        simp [countSep, List.countP_cons, hc, hc'] at ih ⊢
        exact ih hs
      · have hc' : ¬ a' = ',' := fun hh => hc (hcm.mpr hh)
        simp [countSep, List.countP_cons, hc, hc'] at ih ⊢
        exact ih hs

theorem comma_mem_lowerL (s : List Char) : ',' ∈ lowerL s ↔ ',' ∈ s := by
  unfold lowerL
  rw [List.mem_map]
  constructor
  · rintro ⟨c, hc, hl⟩
    exact (lowerc_comma c).mp hl ▸ hc
  · intro h
    exact ⟨',', h, by decide⟩

theorem lowerL_length {s₁ s₂ : List Char} (h : lowerL s₁ = lowerL s₂) :
    s₁.length = s₂.length := by
  have := congrArg List.length h
  simpa [lowerL] using this

/-- C8 counterexample: `indexOf` is not case-insensitive on a delimiter-free
header, because that path uses `strcmp` (main.cc:151): changing only the
letter case of the field name changes the result from offset 0 to a fatal
FieldNotFound. -/
theorem indexOf_case_cex :
    indexOf "date".data "date".data = .ok 0
    ∧ indexOf "date".data "Date".data ≠ indexOf "date".data "date".data := by
  exact ⟨by decide, by decide⟩

/-- C8 amended: on every header line that contains the comma delimiter,
`indexOf` is case-insensitive in both the header fields and the requested
field name: replacing either argument by any same-case-class string (equal
after ASCII lowering) gives the identical result.  (The delimiter-free
whole-line path is case-sensitive, see the C7 theorems.) -/
theorem indexOf_case_insensitive_amended (l₁ l₂ f₁ f₂ : List Char)
    (hc : ',' ∈ l₁) (hl : lowerL l₁ = lowerL l₂) (hf : lowerL f₁ = lowerL f₂) :
    indexOf l₁ f₁ = indexOf l₂ f₂ := by
  have hc₂ : ',' ∈ l₂ := by
    rw [← comma_mem_lowerL, ← hl, comma_mem_lowerL]; exact hc
  unfold indexOf
  cases h₁ : strchr l₁ ',' with
  | none => exact absurd (strchr_eq_none.mp h₁) (fun hn => hn hc)
  | some t₁ =>
    cases h₂ : strchr l₂ ',' with
    | none => exact absurd (strchr_eq_none.mp h₂) (fun hn => hn hc₂)
    | some t₂ =>
      have hlen := lowerL_length hl
      have hloop := indexOfLoop_congr (l₁.length + 2) l₁ l₂ f₁ f₂ 0 hl hf
      have hcount := countSep_congr hl
      rw [← hlen, ← hloop, ← hcount]

theorem indexOf_case_insensitive_amended_witness :
    (',' ∈ "date,close".data)
    ∧ indexOf "date,close".data "Date".data = indexOf "DATE,CLOSE".data "date".data
    ∧ indexOf "date,close".data "Date".data = .ok 0 :=
  ⟨by decide,
   indexOf_case_insensitive_amended "date,close".data "DATE,CLOSE".data
     "Date".data "date".data (by decide) (by decide) (by decide),
   by decide⟩

/-! ## Stream lemmas: fgets reads exactly one well-formed line -/

theorem fgetsAux_newline : ∀ (b : List Char) (n : Nat) (rest : List Char),
    '\n' ∉ b → b.length < n → fgetsAux n (b ++ '\n' :: rest) = b ++ ['\n'] := by
  intro b
  induction b with
  | nil =>
    intro n rest h hl
    cases n with
    | zero => omega
    | succ m => simp [fgetsAux]
  | cons c b' ih =>
    intro n rest h hl
    cases n with
    | zero => omega
    | succ m =>
      have hc : c ≠ '\n' := fun hh => h (hh ▸ List.mem_cons_self _ _)
      have h' : '\n' ∉ b' := fun hh => h (List.mem_cons_of_mem _ hh)
      have hl' : b'.length < m := by
        simp only [List.length_cons] at hl
        omega
      simp [fgetsAux, hc, ih m rest h' hl']

theorem goodLine_decomp {l : List Char} (hg : goodLine l = true) :
    ∃ b, l = b ++ ['\n'] ∧ '\n' ∉ b ∧ b.length + 1 ≤ 255 := by
  unfold goodLine at hg
  simp only [Bool.and_eq_true, Bool.not_eq_true', beq_iff_eq,
    decide_eq_true_eq] at hg
  obtain ⟨⟨⟨hne, hlast⟩, hnl⟩, hlen⟩ := hg
  have hne' : l ≠ [] := by simpa using hne
  refine ⟨l.dropLast, ?_, ?_, ?_⟩
  · have hd := List.dropLast_append_getLast hne'
    have hgl : l.getLast hne' = '\n' := by
      have hq := List.getLast?_eq_getLast l hne'
      rw [hq] at hlast
      exact Option.some.inj hlast
    rw [hgl] at hd
    exact hd.symm
  · intro hmem
    have : l.dropLast.contains '\n' = true := List.elem_eq_true_of_mem hmem
    rw [hnl] at this
    cases this
  · have := List.length_dropLast l
    have hne2 : 1 ≤ l.length := List.length_pos.mpr hne'
    omega

theorem fgets_good (f : FileST) (r rest : List Char)
    (hrem : remainder f = r ++ rest) (hg : goodLine r = true) :
    fgets f = some (r, ⟨f.content, f.pos + r.length⟩) := by
  obtain ⟨b, hb, hnl, hlen⟩ := goodLine_decomp hg
  have haux : fgetsAux 255 (remainder f) = r := by
    rw [hrem, hb, List.append_assoc, List.singleton_append]
    exact fgetsAux_newline b 255 rest hnl (by omega)
  unfold fgets
  rw [haux]
  have : r.isEmpty = false := by
    rw [hb]
    simp
  simp [this]

theorem fgets_eof (f : FileST) (h : remainder f = []) : fgets f = none := by
  have haux : fgetsAux 255 (remainder f) = [] := by rw [h]; rfl
  unfold fgets
  rw [haux]
  rfl

theorem goodLine_one_le {r : List Char} (hg : goodLine r = true) : 1 ≤ r.length := by
  obtain ⟨b, hb, _, _⟩ := goodLine_decomp hg
  simp [hb]

theorem fseek_invalid_whence (f : FileST) (n : Nat) (hn : 1 ≤ n) :
    fseek f 1 (-(n : Int)) = (f, -1) := by
  unfold fseek
  have h0 : ¬((-(n : Int)) = 0) := by omega
  have h1 : ¬((-(n : Int)) = 1) := by omega
  have h2 : ¬((-(n : Int)) = 2) := by omega
  rw [if_neg h0, if_neg h1, if_neg h2]

theorem remainder_advance (f : FileST) (r rest : List Char)
    (hrem : remainder f = r ++ rest) :
    remainder ⟨f.content, f.pos + r.length⟩ = rest := by
  unfold remainder at hrem ⊢
  have hdd : f.content.drop (f.pos + r.length)
      = (f.content.drop f.pos).drop r.length := by
    rw [List.drop_drop]
  rw [hdd, hrem, List.drop_left]

theorem readUntilLoop_eq_seekSpec (k tgt : Nat) :
    ∀ (rows : List (List Char)) (f : FileST) (fuel : Nat),
    remainder f = rows.flatten → (∀ r ∈ rows, goodLine r = true) →
    rows.flatten.length < fuel →
    readUntilLoop k tgt fuel f = seekSpec k tgt rows f := by
  intro rows
  induction rows with
  | nil =>
    intro f fuel hrem hg hfuel
    cases fuel with
    | zero => simp at hfuel
    | succ m =>
      simp only [readUntilLoop, seekSpec]
      rw [fgets_eof f (by simpa using hrem)]
  | cons r rest ih =>
    intro f fuel hrem hg hfuel
    have hgr : goodLine r = true := hg r (List.mem_cons_self _ _)
    have hgrest : ∀ x ∈ rest, goodLine x = true :=
      fun x hx => hg x (List.mem_cons_of_mem _ hx)
    have hrlen : 1 ≤ r.length := goodLine_one_le hgr
    have hjoin : (r :: rest).flatten = r ++ rest.flatten := by simp
    rw [hjoin] at hrem
    have hlenj : r.length + rest.flatten.length < fuel := by
      rw [hjoin] at hfuel
      simpa [List.length_append] using hfuel
    cases fuel with
    | zero => omega
    | succ m =>
      simp only [readUntilLoop, seekSpec]
      rw [fgets_good f r rest.flatten hrem hgr]
      cases hsf : skipFields k r with
      | none => simp [hsf]
      | some date =>
        cases hpd : strptimeDateFmt date with
        | none => simp [hsf, hpd]
        | some res =>
          obtain ⟨⟨y, mo, d⟩, left⟩ := res
          simp only [hsf, hpd]
          by_cases hge : tgt ≤ mkt y mo d
          · rw [if_pos hge, if_pos hge]
            rw [fseek_invalid_whence _ r.length hrlen]
          · rw [if_neg hge, if_neg hge]
            exact ih ⟨f.content, f.pos + r.length⟩ m
              (remainder_advance f r rest.flatten hrem) hgrest (by omega)

theorem rowDate_cases {k : Nat} {r : List Char} {t : Nat} (h : rowDate k r = some t) :
    ∃ date y mo d left, skipFields k r = some date
      ∧ strptimeDateFmt date = some ((y, mo, d), left) ∧ mkt y mo d = t := by
  unfold rowDate at h
  cases hsf : skipFields k r with
  | none => simp [hsf] at h
  | some date =>
    simp only [hsf] at h
    cases hpd : strptimeDateFmt date with
    | none => simp [hpd] at h
    | some res =>
      obtain ⟨⟨y, mo, d⟩, left⟩ := res
      simp only [hpd] at h
      exact ⟨date, y, mo, d, left, rfl, hpd, Option.some.inj h⟩

theorem seekSpec_step {k tgt : Nat} {r : List Char} {t : Nat} (rest : List (List Char))
    (f : FileST) (h : rowDate k r = some t) :
    seekSpec k tgt (r :: rest) f
      = if tgt ≤ t then .ok (t, ⟨f.content, f.pos + r.length⟩)
        else seekSpec k tgt rest ⟨f.content, f.pos + r.length⟩ := by
  obtain ⟨date, y, mo, d, left, hsf, hpd, hmk⟩ := rowDate_cases h
  simp only [seekSpec, hsf, hpd, hmk]

theorem seekSpec_found (k tgt : Nat) :
    ∀ (pre : List (List Char)) (r : List Char) (post : List (List Char))
      (t : Nat) (f : FileST),
    (∀ p ∈ pre, (rowDate k p).isSome ∧ (rowDate k p).getD 0 < tgt) →
    rowDate k r = some t → tgt ≤ t →
    ∃ f', seekSpec k tgt (pre ++ r :: post) f = .ok (t, f') := by
  intro pre
  induction pre with
  | nil =>
    intro r post t f _ hrt hge
    rw [List.nil_append, seekSpec_step post f hrt, if_pos hge]
    exact ⟨_, rfl⟩
  | cons p pre' ih =>
    intro r post t f hpre hrt hge
    obtain ⟨hps, hplt⟩ := hpre p (List.mem_cons_self _ _)
    obtain ⟨tp, htp⟩ := Option.isSome_iff_exists.mp hps
    have hlt : tp < tgt := by rw [htp] at hplt; simpa using hplt
    rw [List.cons_append, seekSpec_step _ f htp, if_neg (by omega)]
    exact ih r post t _ (fun x hx => hpre x (List.mem_cons_of_mem _ hx)) hrt hge

theorem seekSpec_notfound (k tgt : Nat) :
    ∀ (rows : List (List Char)) (f : FileST),
    (∀ r ∈ rows, (rowDate k r).isSome ∧ (rowDate k r).getD 0 < tgt) →
    seekSpec k tgt rows f = .ok (0, ⟨f.content, f.pos + rows.flatten.length⟩) := by
  intro rows
  induction rows with
  | nil =>
    intro f _
    simp [seekSpec]
  | cons r rest ih =>
    intro f hall
    obtain ⟨hrs, hrlt⟩ := hall r (List.mem_cons_self _ _)
    obtain ⟨tr, htr⟩ := Option.isSome_iff_exists.mp hrs
    have hlt : tr < tgt := by rw [htr] at hrlt; simpa using hrlt
    rw [seekSpec_step rest f htr, if_neg (by omega)]
    rw [ih _ (fun x hx => hall x (List.mem_cons_of_mem _ hx))]
    have hl : f.pos + r.length + rest.flatten.length
        = f.pos + (r :: rest).flatten.length := by
      simp only [List.flatten_cons, List.length_append]
      omega
    rw [hl]

/-! ## Claim C3 — seek return value and NotFound behaviour (confirmed) -/

/-- C3: over a stream of well-formed lines whose rows all parse at the
resolved date offset, `read_until` returns the parsed date of the first row
at/after the target when such a row exists, and otherwise returns
NotFound (0) as a normal non-fatal `.ok` outcome with the stream positioned
at end-of-file. -/
theorem read_until_seek_contract (hdr : List Char) (rows : List (List Char))
    (k tgt : Nat) (f : FileST)
    (hf : f.content = hdr ++ rows.flatten) (hp : f.pos = 0)
    (hh : goodLine hdr = true)
    (hr : ∀ r ∈ rows, goodLine r = true)
    (hk : indexOf hdr dateField = .ok k)
    (_hasc : ascendingBy (rows.map (fun r => (rowDate k r).getD 0)) = true) :
    (∀ pre r post t, rows = pre ++ r :: post →
        (∀ p ∈ pre, (rowDate k p).isSome ∧ (rowDate k p).getD 0 < tgt) →
        rowDate k r = some t → tgt ≤ t →
        ∃ f', read_until f tgt = .ok (t, f'))
    ∧ ((∀ r ∈ rows, (rowDate k r).isSome ∧ (rowDate k r).getD 0 < tgt) →
        read_until f tgt = .ok (0, ⟨f.content, f.content.length⟩)) := by
  have hrem : remainder f = hdr ++ rows.flatten := by
    simp [remainder, hp, hf]
  have hfg := fgets_good f hdr rows.flatten hrem hh
  have hrem1 : remainder ⟨f.content, f.pos + hdr.length⟩ = rows.flatten :=
    remainder_advance f hdr rows.flatten hrem
  have hfuel : rows.flatten.length < f.content.length + 1 := by
    have : f.content.length = hdr.length + rows.flatten.length := by
      rw [hf, List.length_append]
    omega
  have hloop := readUntilLoop_eq_seekSpec k tgt rows ⟨f.content, f.pos + hdr.length⟩
    (f.content.length + 1) hrem1 hr hfuel
  have hru : read_until f tgt
      = seekSpec k tgt rows ⟨f.content, f.pos + hdr.length⟩ := by
    unfold read_until
    rw [hfg]
    simp only [hk]
    exact hloop
  constructor
  · intro pre r post t heq hpre hrt hge
    rw [hru, heq]
    exact seekSpec_found k tgt pre r post t _ hpre hrt hge
  · intro hall
    rw [hru, seekSpec_notfound k tgt rows _ hall]
    have hl : f.pos + hdr.length + rows.flatten.length = f.content.length := by
      rw [hp, hf, List.length_append]
      omega
    rw [hl]

theorem read_until_seek_contract_witness :
    (∃ f', read_until ⟨scanExample, 0⟩ (mkt 2018 1 3) = .ok (mkt 2018 1 3, f'))
    ∧ read_until ⟨scanExample, 0⟩ (parse_date "2018-02-01".data)
      = .ok (0, ⟨scanExample, scanExample.length⟩) := by
  constructor
  · exact (read_until_seek_contract "Date,Close\n".data
      ["2018-01-02,10\n".data, "2018-01-03,11\n".data, "2018-01-05,12\n".data]
      0 (mkt 2018 1 3) ⟨scanExample, 0⟩ (by decide) rfl (by decide)
      (by decide) (by decide) (by decide)).1
      ["2018-01-02,10\n".data] "2018-01-03,11\n".data ["2018-01-05,12\n".data]
      (mkt 2018 1 3) (by decide) (by decide) (by decide) (by decide)
  · exact (read_until_seek_contract "Date,Close\n".data
      ["2018-01-02,10\n".data, "2018-01-03,11\n".data, "2018-01-05,12\n".data]
      0 (parse_date "2018-02-01".data) ⟨scanExample, 0⟩ (by decide) rfl (by decide)
      (by decide) (by decide) (by decide)).2 (by decide)

/-! ## Claim C5 — fatal ParseError on the first unparsable value (confirmed) -/

theorem rsdRows_error (k : Nat) (bad : List Char) (post : List (List Char)) :
    ∀ (pre : List (List Char)) (f : FileST) (fuel : Nat) (prices : List DecVal),
    remainder f = (pre ++ bad :: post).flatten →
    (∀ r ∈ pre, goodLine r = true) → goodLine bad = true →
    (∀ r ∈ pre, (rowVal k r).isSome) →
    (skipFields k bad).isSome → rowVal k bad = none →
    (pre ++ bad :: post).flatten.length < fuel →
    rsdRows k fuel f prices = .error .parseClose := by
  intro pre
  induction pre with
  | nil =>
    intro f fuel prices hrem hg hgb hval hskip hbad hfuel
    cases fuel with
    | zero => omega
    | succ m =>
      simp only [rsdRows]
      rw [fgets_good f bad post.flatten (by simpa using hrem) hgb]
      obtain ⟨p, hp⟩ := Option.isSome_iff_exists.mp hskip
      have hstr : strtodM p = none := by
        unfold rowVal at hbad
        simp only [hp] at hbad
        exact hbad
      simp [rsdRow, hp, hstr]
  | cons q pre' ih =>
    intro f fuel prices hrem hg hgb hval hskip hbad hfuel
    have hgq : goodLine q = true := hg q (List.mem_cons_self _ _)
    have hq1 : 1 ≤ q.length := goodLine_one_le hgq
    have hrem' : remainder f = q ++ (pre' ++ bad :: post).flatten := by
      simpa using hrem
    have hlen : q.length + (pre' ++ bad :: post).flatten.length < fuel := by
      have := hfuel
      simp only [List.cons_append, List.flatten_cons, List.length_append] at this
      omega
    cases fuel with
    | zero => omega
    | succ m =>
      simp only [rsdRows]
      rw [fgets_good f q _ hrem' hgq]
      obtain ⟨v, hv⟩ := Option.isSome_iff_exists.mp (hval q (List.mem_cons_self _ _))
      have hrow : rsdRow k q = .ok v := by
        unfold rowVal at hv
        unfold rsdRow
        cases hsq : skipFields k q with
        | none => simp [hsq] at hv
        | some p =>
          simp only [hsq] at hv
          simp [hv]
      simp only [hrow]
      exact ih ⟨f.content, f.pos + q.length⟩ m (prices ++ [v])
        (remainder_advance f q _ hrem')
        (fun x hx => hg x (List.mem_cons_of_mem _ hx)) hgb
        (fun x hx => hval x (List.mem_cons_of_mem _ hx)) hskip hbad (by omega)

/-- C5: on a stream whose target column resolves to offset `k` and whose
rows up to some row all have parsable values, a first row whose value
`strtod` cannot convert (empty or non-numeric) makes `read_stock_data`
abort with the ParseError `die` (main.cc:72-75): the whole call returns the
error — no row is skipped and no zero is substituted. -/
theorem extract_parse_error (hdr bad : List Char) (pre post : List (List Char))
    (k : Nat) (f : FileST)
    (hf : f.content = hdr ++ (pre ++ bad :: post).flatten) (hp : f.pos = 0)
    (hh : goodLine hdr = true)
    (hgpre : ∀ r ∈ pre, goodLine r = true) (hgb : goodLine bad = true)
    (hk : indexOf hdr adjClose = .ok k)
    (hval : ∀ r ∈ pre, (rowVal k r).isSome)
    (hskip : (skipFields k bad).isSome) (hbad : rowVal k bad = none) :
    read_stock_data [some f] = .error .parseClose := by
  have hrem : remainder f = hdr ++ (pre ++ bad :: post).flatten := by
    simp [remainder, hp, hf]
  have hfuel : (pre ++ bad :: post).flatten.length < f.content.length + 1 := by
    have : f.content.length = hdr.length + (pre ++ bad :: post).flatten.length := by
      rw [hf, List.length_append]
    omega
  have hfile : rsdFile f [] = .error .parseClose := by
    unfold rsdFile
    rw [fgets_good f hdr _ hrem hh]
    simp only [hk]
    exact rsdRows_error k bad post pre ⟨f.content, f.pos + hdr.length⟩
      (f.content.length + 1) [] (remainder_advance f hdr _ hrem)
      hgpre hgb hval hskip hbad hfuel
  unfold read_stock_data rsdFiles
  rw [hfile]

theorem extract_parse_error_witness :
    read_stock_data
      [some ⟨"Adj. Close,Date\n10,2018-01-02\nx,2018-01-03\n".data, 0⟩]
      = .error .parseClose :=
  extract_parse_error "Adj. Close,Date\n".data "x,2018-01-03\n".data
    ["10,2018-01-02\n".data] [] 0
    ⟨"Adj. Close,Date\n10,2018-01-02\nx,2018-01-03\n".data, 0⟩
    (by decide) rfl (by decide) (by decide) (by decide) (by decide)
    (by decide) (by decide) (by decide)

/-! ## Claim C10 — the pipeline passes empty dates as present values (confirmed) -/

theorem occCount_pos_tail (pat A : List Char) : 1 ≤ occCount pat (A ++ pat) := by
  have h := occCount_pos pat A []
  simpa using h

/-- C10: getstock's main never passes NULL dates — `begin`/`end` are empty
`std::string`s handed over via `c_str()` — so with no dates supplied every
URL still ends in `&start_date=&end_date=` (empty parameter values rather
than omitted parameters) and every storage filename is `root/TICKER...csv`
(empty date segment), not `root/TICKER.csv`. -/
theorem pipeline_empty_dates (t k root : List Char)
    (_hr : root ≠ []) (hs : root.getLast? ≠ some '/') :
    pipelineURL t k
      = urlbase ++ t ++ ".csv?order=asc&api_key=".data ++ k
        ++ "&start_date=&end_date=".data
    ∧ 1 ≤ occCount "&start_date=".data (pipelineURL t k)
    ∧ 1 ≤ occCount "&end_date=".data (pipelineURL t k)
    ∧ pipelineFilename root t = root ++ '/' :: (t ++ "...csv".data)
    ∧ pipelineFilename root t ≠ root ++ '/' :: (t ++ ".csv".data) := by
  have hSE : "&start_date=".data ++ "&end_date=".data
      = "&start_date=&end_date=".data := by decide
  have hurl : pipelineURL t k
      = urlbase ++ t ++ ".csv?order=asc&api_key=".data ++ k
        ++ "&start_date=&end_date=".data := by
    simp only [pipelineURL, make_url, List.append_nil]
    rw [List.append_assoc (urlbase ++ t ++ ".csv?order=asc&api_key=".data ++ k),
      hSE]
  have hfile : pipelineFilename root t = root ++ '/' :: (t ++ "...csv".data) := by
    simp only [pipelineFilename, make_filename, if_neg hs]
    simp [List.append_assoc]
  refine ⟨hurl, ?_, ?_, hfile, ?_⟩
  · have h1 : pipelineURL t k
        = (urlbase ++ t ++ ".csv?order=asc&api_key=".data ++ k)
          ++ ("&start_date=".data ++ "&end_date=".data) := by
      rw [hurl, hSE]
    rw [h1]
    exact occCount_pos _ _ _
  · have h1 : pipelineURL t k
        = ((urlbase ++ t ++ ".csv?order=asc&api_key=".data ++ k)
          ++ "&start_date=".data) ++ "&end_date=".data := by
      rw [hurl, ← hSE]
      simp [List.append_assoc]
    rw [h1]
    exact occCount_pos_tail _ _
  · intro h
    rw [hfile] at h
    have h4 := List.append_cancel_left h
    injection h4 with _ h5
    have h6 := List.append_cancel_left h5
    exact absurd h6 (by decide)

theorem pipeline_empty_dates_witness :
    pipelineURL "JPM".data "key".data
      = urlbase ++ "JPM".data ++ ".csv?order=asc&api_key=".data ++ "key".data
        ++ "&start_date=&end_date=".data
    ∧ 1 ≤ occCount "&start_date=".data (pipelineURL "JPM".data "key".data)
    ∧ 1 ≤ occCount "&end_date=".data (pipelineURL "JPM".data "key".data)
    ∧ pipelineFilename "data".data "JPM".data
      = "data".data ++ '/' :: ("JPM".data ++ "...csv".data)
    ∧ pipelineFilename "data".data "JPM".data
      ≠ "data".data ++ '/' :: ("JPM".data ++ ".csv".data) :=
  pipeline_empty_dates "JPM".data "key".data "data".data (by decide) (by decide)
